import Mathlib

/-!
Verification of the wifilogd core: the fixed-capacity FIFO record store
(`MessageBuffer`, from `message_buffer.cpp`) and the command protocol
processor (`CommandProcessor`, from `command_processor.cpp`).

Bytes are modelled as `Nat` values, byte arenas as `List Nat`, machine
integers as `Nat` with explicit `% 2^w` where overflow matters.  Fatal
conditions (`CHECK` failures, `LOG(FATAL)`) are modelled as `none` /
`Outcome.fatal`; falling off the end of a non-void function is modelled
as `Outcome.undef`.
-/

namespace Wifilogd

/-- Overwrites the bytes of `data` starting at `pos` with `bytes`
(the semantics of `memcpy(data + pos, bytes, len)` on a byte arena). -/
def storeBytes (data : List Nat) (pos : Nat) (bytes : List Nat) : List Nat :=
  data.take pos ++ bytes ++ data.drop (pos + bytes.length)

/-- Little-endian byte encoding of the 2-byte `LengthHeader { uint16_t payload_len }`
written by `MessageBuffer::AppendHeader` via `memcpy`. -/
def encodeHeader (len : Nat) : List Nat :=
  [len % 256, len / 256 % 256]

/-- Little-endian decoding of the 2-byte `LengthHeader`, as read back by
`memcpy(&header, header_start, sizeof(header))` in `ConsumeNextMessage`. -/
def decodeHeaderBytes (l : List Nat) : Nat :=
  l.getD 0 0 % 256 + l.getD 1 0 % 256 * 256

/-- The record store of `message_buffer.cpp`: a byte arena `data` of size
`capacity` with a read cursor and a write cursor. -/
structure MessageBuffer where
  data : List Nat
  capacity : Nat
  read_pos : Nat
  write_pos : Nat
  deriving DecidableEq, Repr

namespace MessageBuffer

/-- `MessageBuffer::GetHeaderSize()`: `sizeof(LengthHeader)` = 2 bytes. -/
def GetHeaderSize : Nat := 2

/-- Modelled from the spec: `GetFreeSize` is declared in `message_buffer.h`,
which is absent from the sources; the spec defines the remaining free space
as `capacity − w`. -/
def GetFreeSize (b : MessageBuffer) : Nat := b.capacity - b.write_pos

/-- `MessageBuffer::CanFitNow`: free space at least a header, and free space
minus the header at least the payload (formulated to avoid underflow). -/
def CanFitNow (b : MessageBuffer) (length : Nat) : Bool :=
  GetHeaderSize ≤ GetFreeSize b && length ≤ GetFreeSize b - GetHeaderSize

/-- Modelled from the spec: `CanFitEver` is declared in `message_buffer.h`,
absent from the sources; the spec says it tests whether a record of this
length could ever fit in a freshly emptied store of this capacity. -/
def CanFitEver (b : MessageBuffer) (length : Nat) : Bool :=
  length ≤ b.capacity - GetHeaderSize

/-- Modelled from the spec: `Clear` is declared in `message_buffer.h`, absent
from the sources; the spec says it resets both cursors to zero. -/
def Clear (b : MessageBuffer) : MessageBuffer :=
  { b with read_pos := 0, write_pos := 0 }

/-- `MessageBuffer::AppendRawBytes`: `memcpy` at the write cursor, then
advance the write cursor. -/
def AppendRawBytes (b : MessageBuffer) (bytes : List Nat) : MessageBuffer :=
  { b with data := storeBytes b.data b.write_pos bytes,
           write_pos := b.write_pos + bytes.length }

/-- `MessageBuffer::AppendHeader`: write the 2-byte length header. -/
def AppendHeader (b : MessageBuffer) (message_len : Nat) : MessageBuffer :=
  AppendRawBytes b (encodeHeader message_len)

/-- `MessageBuffer::Append`.  `CHECK(message_len)` makes a zero-length append
fatal (`none`).  Otherwise returns `false` leaving the buffer unchanged when
the record does not fit, else writes header then payload and returns `true`. -/
def Append (b : MessageBuffer) (message : List Nat) : Option (Bool × MessageBuffer) :=
  if message.length = 0 then none
  else if ¬ CanFitNow b message.length then some (false, b)
  else some (true, AppendRawBytes (AppendHeader b message.length) message)

/-- `MessageBuffer::ConsumeNextMessage`.  Returns the "no more records" result
`(none, 0)` when `read_pos ≥ write_pos`; otherwise decodes the length header,
returns a view of the payload and advances the read cursor.  The two `CHECK`
bounds checks are modelled as fatal (`none`). -/
def ConsumeNextMessage (b : MessageBuffer) :
    Option ((Option (List Nat) × Nat) × MessageBuffer) :=
  if b.read_pos ≥ b.write_pos then some ((none, 0), b)
  else if ¬ (b.read_pos + GetHeaderSize ≤ b.capacity) then none
  else
    let len := decodeHeaderBytes ((b.data.drop b.read_pos).take GetHeaderSize)
    let r1 := b.read_pos + GetHeaderSize
    let payload := (b.data.drop r1).take len
    let r2 := r1 + len
    if ¬ (r2 ≤ b.capacity) then none
    else some ((some payload, len), { b with read_pos := r2 })

end MessageBuffer

/-- The byte encoding of one stored record: 2-byte length header followed by
the payload bytes. -/
def encodeRecord (p : List Nat) : List Nat := encodeHeader p.length ++ p

/-- The byte encoding of a sequence of records, back to back. -/
def encodeRecords (rs : List (List Nat)) : List Nat :=
  (rs.map encodeRecord).flatten

/-- `b` holds exactly the (unconsumed) records `rs`: the arena has size
`capacity`, the region `[read_pos, write_pos)` is precisely the encoding of
`rs`, the cursors are in bounds, and every record's payload length is a
nonzero `uint16` value. -/
@[reducible] def Represents (b : MessageBuffer) (rs : List (List Nat)) : Prop :=
  b.data.length = b.capacity ∧
  b.read_pos + (encodeRecords rs).length = b.write_pos ∧
  b.write_pos ≤ b.capacity ∧
  (b.data.drop b.read_pos).take (encodeRecords rs).length = encodeRecords rs ∧
  ∀ p ∈ rs, 0 < p.length ∧ p.length < 65536

/-! ### Basic facts about `storeBytes` and the record encoding -/

theorem length_encodeHeader (n : Nat) : (encodeHeader n).length = 2 := rfl

theorem length_storeBytes (data : List Nat) (pos : Nat) (bytes : List Nat)
    (h : pos + bytes.length ≤ data.length) :
    (storeBytes data pos bytes).length = data.length := by
  simp only [storeBytes, List.length_append, List.length_take, List.length_drop]
  omega

theorem storeBytes_append (data : List Nat) (pos : Nat) (a b : List Nat)
    (h : pos ≤ data.length) :
    storeBytes (storeBytes data pos a) (pos + a.length) b =
      data.take pos ++ (a ++ (b ++ data.drop (pos + a.length + b.length))) := by
  have htl : (data.take pos).length = pos := by
    rw [List.length_take]; omega
  have hX : storeBytes data pos a =
      (data.take pos ++ a) ++ data.drop (pos + a.length) := by
    simp [storeBytes]
  have hlen : (data.take pos ++ a).length = pos + a.length := by
    simp [htl]
  have htake : (storeBytes data pos a).take (pos + a.length) = data.take pos ++ a := by
    rw [hX, List.take_left' hlen]
  have hdrop : (storeBytes data pos a).drop (pos + a.length + b.length) =
      data.drop (pos + a.length + b.length) := by
    rw [hX, List.drop_append_eq_append_drop]
    rw [List.drop_eq_nil_of_le (by rw [hlen]; omega), hlen]
    have h2 : pos + a.length + b.length - (pos + a.length) = b.length := by omega
    rw [h2, List.nil_append, List.drop_drop]
  rw [show storeBytes (storeBytes data pos a) (pos + a.length) b =
      (storeBytes data pos a).take (pos + a.length) ++ b ++
      (storeBytes data pos a).drop (pos + a.length + b.length) from rfl]
  rw [htake, hdrop]
  simp [List.append_assoc]

theorem encodeRecords_nil : encodeRecords [] = [] := rfl

theorem encodeRecords_cons (p : List Nat) (rs : List (List Nat)) :
    encodeRecords (p :: rs) = encodeRecord p ++ encodeRecords rs := by
  simp [encodeRecords]

theorem encodeRecords_append (rs ts : List (List Nat)) :
    encodeRecords (rs ++ ts) = encodeRecords rs ++ encodeRecords ts := by
  simp [encodeRecords]

theorem length_encodeRecord (p : List Nat) :
    (encodeRecord p).length = 2 + p.length := by
  simp [encodeRecord, encodeHeader]
  omega

/-- Each record contributes at least its 2-byte header, so there are no more
records than encoded bytes. -/
theorem length_le_length_encodeRecords (rs : List (List Nat)) :
    rs.length ≤ (encodeRecords rs).length := by
  induction rs with
  | nil => simp [encodeRecords]
  | cons p rs ih =>
    rw [encodeRecords_cons]
    simp only [List.length_cons, List.length_append, length_encodeRecord]
    omega

/-! ### Claim C1: append admission and no-mutation-on-failure -/

/-- C1: for a `MessageBuffer` of capacity `C`, write cursor `w`, and a message
of length `L > 0`, `Append` returns `true` and stores the record (2-byte
header then payload, at the write cursor) iff `C − w ≥ header_size` and
`C − w − header_size ≥ L`; when it returns `false` the buffer (cursors and
contents) is unchanged. -/
theorem append_admission (b : MessageBuffer) (msg : List Nat)
    (hL : 0 < msg.length) (hL16 : msg.length < 65536)
    (hd : b.data.length = b.capacity) (hw : b.write_pos ≤ b.capacity) :
    ((∃ b', MessageBuffer.Append b msg = some (true, b')) ↔
      (MessageBuffer.GetHeaderSize ≤ b.capacity - b.write_pos ∧
       msg.length ≤ b.capacity - b.write_pos - MessageBuffer.GetHeaderSize)) ∧
    (∀ b', MessageBuffer.Append b msg = some (true, b') →
      b'.read_pos = b.read_pos ∧ b'.capacity = b.capacity ∧
      b'.write_pos = b.write_pos + MessageBuffer.GetHeaderSize + msg.length ∧
      b'.data = b.data.take b.write_pos ++ (encodeHeader msg.length ++ (msg ++
        b.data.drop (b.write_pos + MessageBuffer.GetHeaderSize + msg.length)))) ∧
    (∀ b', MessageBuffer.Append b msg = some (false, b') → b' = b) := by
  have hne : ¬ msg.length = 0 := hL.ne'
  have hfit : (MessageBuffer.CanFitNow b msg.length = true) ↔
      (MessageBuffer.GetHeaderSize ≤ b.capacity - b.write_pos ∧
       msg.length ≤ b.capacity - b.write_pos - MessageBuffer.GetHeaderSize) := by
    simp [MessageBuffer.CanFitNow, MessageBuffer.GetFreeSize,
      MessageBuffer.GetHeaderSize]
  by_cases hcase : MessageBuffer.GetHeaderSize ≤ b.capacity - b.write_pos ∧
      msg.length ≤ b.capacity - b.write_pos - MessageBuffer.GetHeaderSize
  · have happ : MessageBuffer.Append b msg = some (true,
        MessageBuffer.AppendRawBytes (MessageBuffer.AppendHeader b msg.length) msg) := by
      simp [MessageBuffer.Append, hne, hfit.mpr hcase]
    refine ⟨⟨fun _ => hcase, fun _ => ⟨_, happ⟩⟩, ?_, ?_⟩
    · intro b' hb'
      rw [happ] at hb'
      simp only [Option.some.injEq, Prod.mk.injEq, true_and] at hb'
      subst hb'
      have hwlen : b.write_pos ≤ b.data.length := by omega
      have hsb := storeBytes_append b.data b.write_pos (encodeHeader msg.length) msg hwlen
      simp only [length_encodeHeader] at hsb
      refine ⟨rfl, rfl, ?_, ?_⟩
      · simp only [MessageBuffer.AppendRawBytes, MessageBuffer.AppendHeader,
          length_encodeHeader, MessageBuffer.GetHeaderSize]
      · simp only [MessageBuffer.AppendRawBytes, MessageBuffer.AppendHeader,
          length_encodeHeader, MessageBuffer.GetHeaderSize]
        exact hsb
    · intro b' hb'
      rw [happ] at hb'
      simp at hb'
  · have hnot : ¬ (MessageBuffer.CanFitNow b msg.length = true) :=
      fun hc => hcase (hfit.mp hc)
    have happ : MessageBuffer.Append b msg = some (false, b) := by
      simp [MessageBuffer.Append, hne, hnot]
    refine ⟨⟨?_, fun hc => absurd hc hcase⟩, ?_, ?_⟩
    · rintro ⟨b', hb'⟩
      rw [happ] at hb'
      simp at hb'
    · intro b' hb'
      rw [happ] at hb'
      simp at hb'
    · intro b' hb'
      rw [happ] at hb'
      simp only [Option.some.injEq, Prod.mk.injEq, true_and] at hb'
      exact hb'.symm

/-! ### The store/record correspondence: consume, append, clear -/

theorem decode_encodeHeader (n : Nat) (h : n < 65536) :
    decodeHeaderBytes (encodeHeader n) = n := by
  simp only [decodeHeaderBytes, encodeHeader, List.getD_cons_zero, List.getD_cons_succ]
  omega

theorem CanFitNow_iff (b : MessageBuffer) (len : Nat) :
    MessageBuffer.CanFitNow b len = true ↔
      (2 ≤ b.capacity - b.write_pos ∧ len ≤ b.capacity - b.write_pos - 2) := by
  simp [MessageBuffer.CanFitNow, MessageBuffer.GetFreeSize, MessageBuffer.GetHeaderSize]

theorem ConsumeNextMessage_nil (b : MessageBuffer) (h : Represents b []) :
    MessageBuffer.ConsumeNextMessage b = some ((none, 0), b) := by
  obtain ⟨_, hrw, _, _, _⟩ := h
  have hge : b.read_pos ≥ b.write_pos := by
    simp only [encodeRecords, List.map_nil, List.flatten_nil, List.length_nil] at hrw
    omega
  simp [MessageBuffer.ConsumeNextMessage, hge]

theorem ConsumeNextMessage_cons (b : MessageBuffer) (p : List Nat) (rs : List (List Nat))
    (h : Represents b (p :: rs)) :
    MessageBuffer.ConsumeNextMessage b =
      some ((some p, p.length), { b with read_pos := b.read_pos + 2 + p.length }) ∧
    Represents { b with read_pos := b.read_pos + 2 + p.length } rs := by
  obtain ⟨hd, hrw, hwc, hreg, hval⟩ := h
  obtain ⟨hp0, hp16⟩ := hval p (List.mem_cons_self p rs)
  have hlen : (encodeRecords (p :: rs)).length =
      2 + p.length + (encodeRecords rs).length := by
    rw [encodeRecords_cons]
    simp only [List.length_append, length_encodeRecord]
  have hrecord : encodeRecords (p :: rs) =
      encodeHeader p.length ++ (p ++ encodeRecords rs) := by
    rw [encodeRecords_cons, encodeRecord, List.append_assoc]
  have hlt : ¬ (b.read_pos ≥ b.write_pos) := by omega
  have hhdr : (b.data.drop b.read_pos).take 2 = encodeHeader p.length := by
    have h2 : ((b.data.drop b.read_pos).take ((encodeRecords (p :: rs)).length)).take 2
        = (encodeRecords (p :: rs)).take 2 := by rw [hreg]
    rw [List.take_take] at h2
    have hm : min 2 (encodeRecords (p :: rs)).length = 2 := by omega
    rw [hm] at h2
    rw [h2, hrecord, List.take_left' (length_encodeHeader p.length)]
  have hdec : decodeHeaderBytes ((b.data.drop b.read_pos).take 2) = p.length := by
    rw [hhdr, decode_encodeHeader _ hp16]
  have hrest : (b.data.drop (b.read_pos + 2)).take (p.length + (encodeRecords rs).length)
      = p ++ encodeRecords rs := by
    have h2 : ((b.data.drop b.read_pos).take ((encodeRecords (p :: rs)).length)).drop 2
        = (encodeRecords (p :: rs)).drop 2 := by rw [hreg]
    rw [List.drop_take, List.drop_drop] at h2
    have hm : (encodeRecords (p :: rs)).length - 2 =
        p.length + (encodeRecords rs).length := by omega
    rw [hm] at h2
    rw [h2, hrecord, List.drop_left' (length_encodeHeader p.length)]
  have hpay : (b.data.drop (b.read_pos + 2)).take p.length = p := by
    have h3 : ((b.data.drop (b.read_pos + 2)).take
          (p.length + (encodeRecords rs).length)).take p.length
        = (p ++ encodeRecords rs).take p.length := by rw [hrest]
    rw [List.take_take] at h3
    have hm : min p.length (p.length + (encodeRecords rs).length) = p.length := by omega
    rw [hm] at h3
    rw [h3, List.take_left' rfl]
  have hg2 : b.read_pos + 2 ≤ b.capacity := by omega
  have hg3 : b.read_pos + 2 + p.length ≤ b.capacity := by omega
  constructor
  · unfold MessageBuffer.ConsumeNextMessage
    simp only [MessageBuffer.GetHeaderSize, hdec]
    rw [if_neg hlt, if_neg (not_not_intro hg2), if_neg (not_not_intro hg3), hpay]
  · refine ⟨hd, ?_, hwc, ?_, fun q hq => hval q (List.mem_cons_of_mem p hq)⟩
    · show b.read_pos + 2 + p.length + (encodeRecords rs).length = b.write_pos
      omega
    · have h4 : ((b.data.drop (b.read_pos + 2)).take
            (p.length + (encodeRecords rs).length)).drop p.length
          = (p ++ encodeRecords rs).drop p.length := by rw [hrest]
      rw [List.drop_take, List.drop_drop, List.drop_left' rfl] at h4
      have hm : p.length + (encodeRecords rs).length - p.length =
          (encodeRecords rs).length := by omega
      rw [hm] at h4
      exact h4

theorem Append_true_elim (b : MessageBuffer) (p : List Nat) (b' : MessageBuffer)
    (h : MessageBuffer.Append b p = some (true, b')) :
    p.length ≠ 0 ∧ MessageBuffer.CanFitNow b p.length = true ∧
      b' = MessageBuffer.AppendRawBytes (MessageBuffer.AppendHeader b p.length) p := by
  unfold MessageBuffer.Append at h
  by_cases h0 : p.length = 0
  · simp [h0] at h
  · rw [if_neg h0] at h
    cases hfit : MessageBuffer.CanFitNow b p.length with
    | false =>
      rw [hfit] at h
      simp at h
    | true =>
      rw [hfit] at h
      simp only [not_true, if_neg, Bool.true_eq_false, not_false_eq_true,
        if_false, Option.some.injEq, Prod.mk.injEq, true_and] at h
      exact ⟨h0, rfl, h.symm⟩

theorem Append_represents (b : MessageBuffer) (rs : List (List Nat)) (p : List Nat)
    (h : Represents b rs) (hp0 : 0 < p.length) (hp16 : p.length < 65536)
    (hfit : MessageBuffer.CanFitNow b p.length = true) :
    MessageBuffer.Append b p = some (true,
      MessageBuffer.AppendRawBytes (MessageBuffer.AppendHeader b p.length) p) ∧
    Represents (MessageBuffer.AppendRawBytes (MessageBuffer.AppendHeader b p.length) p)
      (rs ++ [p]) ∧
    (MessageBuffer.AppendRawBytes (MessageBuffer.AppendHeader b p.length) p).read_pos
      = b.read_pos := by
  obtain ⟨hd, hrw, hwc, hreg, hval⟩ := h
  obtain ⟨hfree, hroom⟩ := (CanFitNow_iff b p.length).mp hfit
  have hwend : b.write_pos + 2 + p.length ≤ b.capacity := by omega
  have happ : MessageBuffer.Append b p = some (true,
      MessageBuffer.AppendRawBytes (MessageBuffer.AppendHeader b p.length) p) := by
    simp [MessageBuffer.Append, hp0.ne', hfit]
  have hwlen : b.write_pos ≤ b.data.length := by omega
  have hsb := storeBytes_append b.data b.write_pos (encodeHeader p.length) p hwlen
  simp only [length_encodeHeader] at hsb
  have hdata : (MessageBuffer.AppendRawBytes (MessageBuffer.AppendHeader b p.length) p).data
      = b.data.take b.write_pos ++ (encodeHeader p.length ++ (p ++
          b.data.drop (b.write_pos + 2 + p.length))) := by
    simp only [MessageBuffer.AppendRawBytes, MessageBuffer.AppendHeader, length_encodeHeader]
    exact hsb
  have hw' : (MessageBuffer.AppendRawBytes (MessageBuffer.AppendHeader b p.length) p).write_pos
      = b.write_pos + 2 + p.length := by
    simp only [MessageBuffer.AppendRawBytes, MessageBuffer.AppendHeader, length_encodeHeader]
  have hc' : (MessageBuffer.AppendRawBytes (MessageBuffer.AppendHeader b p.length) p).capacity
      = b.capacity := rfl
  have hr' : (MessageBuffer.AppendRawBytes (MessageBuffer.AppendHeader b p.length) p).read_pos
      = b.read_pos := rfl
  refine ⟨happ, ?_, hr'⟩
  have henclen : (encodeRecords rs).length = b.write_pos - b.read_pos := by omega
  have hencapp : encodeRecords (rs ++ [p]) =
      encodeRecords rs ++ (encodeHeader p.length ++ (p ++ [])) := by
    rw [encodeRecords_append]
    simp [encodeRecords, encodeRecord, List.append_assoc]
  refine ⟨?_, ?_, ?_, ?_, ?_⟩
  · rw [hdata, hc']
    simp only [List.length_append, List.length_take, List.length_drop, length_encodeHeader]
    omega
  · rw [hr', hw', hencapp]
    simp only [List.length_append, length_encodeHeader, List.length_nil]
    omega
  · rw [hw', hc']
    exact hwend
  · rw [hr', hdata, hencapp]
    have htp : (b.data.take b.write_pos).length = b.write_pos := by
      rw [List.length_take]; omega
    rw [List.drop_append_eq_append_drop, htp]
    have hr0 : b.read_pos - b.write_pos = 0 := by omega
    rw [hr0, List.drop_zero]
    have hE : (b.data.take b.write_pos).drop b.read_pos = encodeRecords rs := by
      rw [List.drop_take]
      have hm : b.write_pos - b.read_pos = (encodeRecords rs).length := by omega
      rw [hm]
      exact hreg
    rw [hE]
    have hL : (encodeRecords rs ++ (encodeHeader p.length ++ (p ++ ([] : List Nat)))).length
        = (encodeRecords rs).length + (2 + (p.length + 0)) := by
      simp only [List.length_append, length_encodeHeader, List.length_nil]
    rw [hL, List.take_append_eq_append_take]
    rw [List.take_of_length_le
      (show (encodeRecords rs).length ≤ (encodeRecords rs).length + (2 + (p.length + 0))
        by omega)]
    have h1 : (encodeRecords rs).length + (2 + (p.length + 0)) -
        (encodeRecords rs).length = 2 + (p.length + 0) := by omega
    rw [h1, List.take_append_eq_append_take]
    rw [List.take_of_length_le
      (show (encodeHeader p.length).length ≤ 2 + (p.length + 0)
        by simp only [length_encodeHeader]; omega)]
    have h2 : 2 + (p.length + 0) - (encodeHeader p.length).length = p.length + 0 := by
      simp only [length_encodeHeader]; omega
    rw [h2, List.take_append_eq_append_take]
    rw [List.take_of_length_le (show p.length ≤ p.length + 0 by omega)]
    have h3 : p.length + 0 - p.length = 0 := by omega
    rw [h3, List.take_zero]
  · intro q hq
    rcases List.mem_append.mp hq with hq | hq
    · exact hval q hq
    · have : q = p := by simpa using hq
      subst this
      exact ⟨hp0, hp16⟩

theorem Clear_represents (b : MessageBuffer) (rs : List (List Nat))
    (h : Represents b rs) : Represents (MessageBuffer.Clear b) [] := by
  obtain ⟨hd, _, _, _, _⟩ := h
  refine ⟨hd, ?_, ?_, ?_, ?_⟩
  · simp [MessageBuffer.Clear, encodeRecords]
  · simp [MessageBuffer.Clear]
  · simp [MessageBuffer.Clear, encodeRecords]
  · intro q hq
    simp at hq

/-- A fresh buffer of capacity 8, as built by `MessageBuffer::MessageBuffer(8)`. -/
def bufEx8 : MessageBuffer := ⟨List.replicate 8 0, 8, 0, 0⟩

/-- Witness for `append_admission`: capacity 8, fresh cursors, message `[42]`. -/
theorem append_admission_witness :
    (0 < ([42] : List Nat).length ∧ ([42] : List Nat).length < 65536 ∧
      bufEx8.data.length = bufEx8.capacity ∧ bufEx8.write_pos ≤ bufEx8.capacity) ∧
    (∃ b', MessageBuffer.Append bufEx8 [42] = some (true, b')) :=
  ⟨by decide, (append_admission bufEx8 [42] (by decide) (by decide) (by decide)
      (by decide)).1.mpr (by decide)⟩

/-! ### Claim C3: FIFO order of append and consume -/

/-- A sequence of `Append` calls, required to all succeed (result `true`). -/
def appendAll : MessageBuffer → List (List Nat) → Option MessageBuffer
  | b, [] => some b
  | b, p :: rest =>
    match MessageBuffer.Append b p with
    | some (true, b') => appendAll b' rest
    | _ => none

/-- A fixed number of `ConsumeNextMessage` calls, collecting the returned
(view, length) results. -/
def consumeSeq : MessageBuffer → Nat → Option (List (Option (List Nat) × Nat) × MessageBuffer)
  | b, 0 => some ([], b)
  | b, n + 1 =>
    (MessageBuffer.ConsumeNextMessage b).bind fun rb =>
      (consumeSeq rb.2 n).bind fun rest => some (rb.1 :: rest.1, rest.2)

theorem appendAll_represents : ∀ (ps : List (List Nat)) (b : MessageBuffer)
    (rs : List (List Nat)) (b' : MessageBuffer),
    (∀ p ∈ ps, p.length < 65536) → Represents b rs →
    appendAll b ps = some b' → Represents b' (rs ++ ps)
  | [], b, rs, b', _, hR, h => by
    simp only [appendAll, Option.some.injEq] at h
    subst h
    simpa using hR
  | p :: rest, b, rs, b', hv, hR, h => by
    unfold appendAll at h
    cases happ : MessageBuffer.Append b p with
    | none => rw [happ] at h; simp at h
    | some x =>
      obtain ⟨fst, b₁⟩ := x
      cases fst with
      | false => rw [happ] at h; simp at h
      | true =>
        rw [happ] at h
        obtain ⟨h0, hfit, hb⟩ := Append_true_elim b p b₁ happ
        have hp0 : 0 < p.length := Nat.pos_of_ne_zero h0
        have hp16 : p.length < 65536 := hv p (List.mem_cons_self p rest)
        obtain ⟨_, hRep', _⟩ := Append_represents b rs p hR hp0 hp16 hfit
        rw [← hb] at hRep'
        have hv' : ∀ q ∈ rest, q.length < 65536 :=
          fun q hq => hv q (List.mem_cons_of_mem p hq)
        have := appendAll_represents rest b₁ (rs ++ [p]) b' hv' hRep' h
        rwa [← List.append_cons] at this

theorem consumeSeq_represents : ∀ (rs : List (List Nat)) (b : MessageBuffer),
    Represents b rs →
    ∃ bEnd, consumeSeq b (rs.length + 1) =
      some (rs.map (fun p => (some p, p.length)) ++ [(none, 0)], bEnd) ∧
      Represents bEnd []
  | [], b, hR => by
    have h := ConsumeNextMessage_nil b hR
    refine ⟨b, ?_, hR⟩
    simp [consumeSeq, h]
  | p :: rs, b, hR => by
    obtain ⟨hc, hR'⟩ := ConsumeNextMessage_cons b p rs hR
    obtain ⟨bEnd, hseq, hRe⟩ := consumeSeq_represents rs _ hR'
    refine ⟨bEnd, ?_, hRe⟩
    simp only [List.length_cons]
    obtain ⟨n, hn⟩ : ∃ n, rs.length + 1 = n := ⟨_, rfl⟩
    rw [hn] at hseq ⊢
    simp only [consumeSeq]
    rw [hc]
    simp only [Option.some_bind]
    rw [hseq]
    simp

/-- C3: after a sequence of successful appends of payloads `ps` into an empty
store, `ps.length` consumes return exactly the payloads in order, with their
original lengths and contents, and one more consume returns the empty result
`(null, 0)`. -/
theorem fifo_order (b : MessageBuffer) (ps : List (List Nat))
    (hR : Represents b [])
    (hv : ∀ p ∈ ps, p.length < 65536) :
    ∀ b', appendAll b ps = some b' →
      ∃ bEnd, consumeSeq b' (ps.length + 1) =
        some (ps.map (fun p => (some p, p.length)) ++ [(none, 0)], bEnd) := by
  intro b' hA
  have hRep := appendAll_represents ps b [] b' hv hR hA
  simp only [List.nil_append] at hRep
  obtain ⟨bEnd, hseq, _⟩ := consumeSeq_represents ps b' hRep
  exact ⟨bEnd, hseq⟩

/-- A fresh buffer of capacity 12. -/
def bufEx12 : MessageBuffer := ⟨List.replicate 12 0, 12, 0, 0⟩

/-- The buffer of capacity 12 after appending `[1]` then `[2, 3]`. -/
def bufEx12' : MessageBuffer := ⟨[1, 0, 1, 2, 0, 2, 3, 0, 0, 0, 0, 0], 12, 0, 7⟩

/-- Witness for `fifo_order`: append `[1]` then `[2,3]` into a fresh
capacity-12 store, then consume three times. -/
theorem fifo_order_witness :
    (Represents bufEx12 [] ∧ (∀ p ∈ [[1], [2, 3]], List.length p < 65536) ∧
      appendAll bufEx12 [[1], [2, 3]] = some bufEx12') ∧
    (∃ bEnd, consumeSeq bufEx12' 3 =
      some ([(some [1], 1), (some [2, 3], 2), (none, 0)], bEnd)) :=
  ⟨⟨by decide, by decide, by decide⟩,
    fifo_order bufEx12 [[1], [2, 3]] (by decide) (by decide) bufEx12' (by decide)⟩

/-! ### Claim C9: cursor invariants over arbitrary operation sequences -/

/-- An operation on the record store, as invoked by clients. -/
inductive BufOp where
  | app (p : List Nat)
  | consume
  | clear

/-- A caller-side validity condition matching the C types and the
`CHECK(message_len)` precondition: appended payloads are nonempty and their
length fits `uint16_t`. -/
def validOp : BufOp → Prop
  | .app p => 0 < p.length ∧ p.length < 65536
  | .consume => True
  | .clear => True

/-- Runs a sequence of store operations; `none` means some operation hit a
fatal `CHECK`. -/
def runOps : MessageBuffer → List BufOp → Option MessageBuffer
  | b, [] => some b
  | b, op :: rest =>
    match op with
    | .app p =>
      match MessageBuffer.Append b p with
      | none => none
      | some (_, b') => runOps b' rest
    | .consume =>
      match MessageBuffer.ConsumeNextMessage b with
      | none => none
      | some (_, b') => runOps b' rest
    | .clear => runOps (MessageBuffer.Clear b) rest

/-- `MessageBuffer::MessageBuffer(size)`: fresh arena, both cursors zero.
The C++ arena is uninitialized; it is modelled as zero bytes, which is sound
because no byte is read before being written. -/
def mkBuffer (C : Nat) : MessageBuffer := ⟨List.replicate C 0, C, 0, 0⟩

theorem runOps_represents : ∀ (ops : List BufOp) (b : MessageBuffer)
    (rs : List (List Nat)),
    (∀ op ∈ ops, validOp op) → Represents b rs →
    ∃ b' rs', runOps b ops = some b' ∧ Represents b' rs'
  | [], b, rs, _, hR => ⟨b, rs, rfl, hR⟩
  | op :: rest, b, rs, hv, hR => by
    have hv' : ∀ o ∈ rest, validOp o := fun o ho => hv o (List.mem_cons_of_mem _ ho)
    cases op with
    | app p =>
      obtain ⟨hp0, hp16⟩ := hv _ (List.mem_cons_self _ _)
      by_cases hfit : MessageBuffer.CanFitNow b p.length = true
      · obtain ⟨happ, hRep', _⟩ := Append_represents b rs p hR hp0 hp16 hfit
        obtain ⟨b', rs', hrun, hR'⟩ := runOps_represents rest _ _ hv' hRep'
        refine ⟨b', rs', ?_, hR'⟩
        simp only [runOps, happ]
        exact hrun
      · have hf : MessageBuffer.CanFitNow b p.length = false := by
          cases hcb : MessageBuffer.CanFitNow b p.length
          · rfl
          · exact absurd hcb hfit
        have happ : MessageBuffer.Append b p = some (false, b) := by
          simp [MessageBuffer.Append, hp0.ne', hf]
        obtain ⟨b', rs', hrun, hR'⟩ := runOps_represents rest b rs hv' hR
        refine ⟨b', rs', ?_, hR'⟩
        simp only [runOps, happ]
        exact hrun
    | consume =>
      cases rs with
      | nil =>
        have hc := ConsumeNextMessage_nil b hR
        obtain ⟨b', rs', hrun, hR'⟩ := runOps_represents rest b [] hv' hR
        refine ⟨b', rs', ?_, hR'⟩
        simp only [runOps, hc]
        exact hrun
      | cons p rs =>
        obtain ⟨hc, hR2⟩ := ConsumeNextMessage_cons b p rs hR
        obtain ⟨b', rs', hrun, hR'⟩ := runOps_represents rest _ _ hv' hR2
        refine ⟨b', rs', ?_, hR'⟩
        simp only [runOps, hc]
        exact hrun
    | clear =>
      have hR2 := Clear_represents b rs hR
      obtain ⟨b', rs', hrun, hR'⟩ := runOps_represents rest _ _ hv' hR2
      refine ⟨b', rs', ?_, hR'⟩
      simp only [runOps]
      exact hrun

/-- C9: starting from a freshly constructed buffer of capacity `C > 2` and
running any sequence of `Append` / `ConsumeNextMessage` / `Clear` operations
(with appends supplying nonzero `uint16`-length payloads), no internal
`CHECK` ever fails, the final state satisfies `read_pos ≤ write_pos ≤
capacity`, the read cursor sits on a record boundary (the unread region is an
exact encoding of a record list), and the bounds checks inside
`ConsumeNextMessage` cannot fail in the resulting state. -/
theorem buffer_invariants (C : Nat) (hC : 2 < C) (ops : List BufOp)
    (hv : ∀ op ∈ ops, validOp op) :
    ∃ b rs, runOps (mkBuffer C) ops = some b ∧ Represents b rs ∧
      b.read_pos ≤ b.write_pos ∧ b.write_pos ≤ b.capacity ∧
      (∃ res, MessageBuffer.ConsumeNextMessage b = some res) := by
  have hR : Represents (mkBuffer C) [] := by
    refine ⟨?_, ?_, ?_, ?_, ?_⟩ <;> simp [mkBuffer, encodeRecords]
  obtain ⟨b, rs, hrun, hRep⟩ := runOps_represents ops (mkBuffer C) [] hv hR
  refine ⟨b, rs, hrun, hRep, ?_, hRep.2.2.1, ?_⟩
  · obtain ⟨_, hrw, _, _, _⟩ := hRep
    omega
  · cases rs with
    | nil => exact ⟨_, ConsumeNextMessage_nil b hRep⟩
    | cons p rs => exact ⟨_, (ConsumeNextMessage_cons b p rs hRep).1⟩

/-- Witness for `buffer_invariants`: capacity 5, operations
append `[7]`, consume, clear. -/
theorem buffer_invariants_witness :
    (2 < 5 ∧ ∀ op ∈ [BufOp.app [7], BufOp.consume, BufOp.clear], validOp op) ∧
    (∃ b rs, runOps (mkBuffer 5) [BufOp.app [7], BufOp.consume, BufOp.clear] = some b ∧
      Represents b rs ∧ b.read_pos ≤ b.write_pos ∧ b.write_pos ≤ b.capacity ∧
      (∃ res, MessageBuffer.ConsumeNextMessage b = some res)) := by
  have hv : ∀ op ∈ [BufOp.app [7], BufOp.consume, BufOp.clear], validOp op := by
    intro op hop
    simp only [List.mem_cons, List.not_mem_nil, or_false] at hop
    rcases hop with rfl | rfl | rfl
    · exact ⟨by decide, by decide⟩
    · trivial
    · trivial
  exact ⟨⟨by decide, hv⟩, buffer_invariants 5 (by decide) _ hv⟩

/-! ### The command processor (`command_processor.cpp`)

Timestamps, the wire protocol, and the processing/dump paths.  The injected
`Os` collaborator is modelled by passing the three clock readings and an
oracle of `Write` errno results as explicit arguments. -/

/-- `Os::Timestamp` (`os.h`): `uint32_t secs; uint32_t nsecs;`. -/
structure Timestamp where
  secs : Nat
  nsecs : Nat
  deriving DecidableEq, Repr

/-- `CommandProcessor::TimestampHeader` (`command_processor.h`): the three
clock readings captured at ingestion. -/
structure TimestampHeader where
  since_boot_awake_only : Timestamp
  since_boot_with_sleep : Timestamp
  since_epoch : Timestamp
  deriving DecidableEq, Repr

/-- Little-endian byte image of a `uint32_t`, as laid down by `memcpy`. -/
def encodeU32 (n : Nat) : List Nat :=
  [n % 256, n / 256 % 256, n / 65536 % 256, n / 16777216 % 256]

def encodeTimestamp (t : Timestamp) : List Nat :=
  encodeU32 t.secs ++ encodeU32 t.nsecs

/-- The `memcpy` byte image of a `TimestampHeader`: 3 × 2 little-endian
`uint32` fields, 24 bytes, no padding. -/
def encodeTimestampHeader (h : TimestampHeader) : List Nat :=
  encodeTimestamp h.since_boot_awake_only ++
    (encodeTimestamp h.since_boot_with_sleep ++ encodeTimestamp h.since_epoch)

def decodeU32 (l : List Nat) (i : Nat) : Nat :=
  l.getD i 0 % 256 + l.getD (i + 1) 0 % 256 * 256 +
    l.getD (i + 2) 0 % 256 * 65536 + l.getD (i + 3) 0 % 256 * 16777216

/-- `CopyFromBufferOrDie<TimestampHeader>`: reinterpret the first 24 bytes of
a record as the timestamp header (the caller checks the length bound). -/
def decodeTimestampHeader (l : List Nat) : TimestampHeader :=
  ⟨⟨decodeU32 l 0, decodeU32 l 4⟩, ⟨decodeU32 l 8, decodeU32 l 12⟩,
    ⟨decodeU32 l 16, decodeU32 l 20⟩⟩

/-- Fuel-driven helper for `decChars` (the fuel makes it structurally
recursive, hence evaluable; `n + 1` fuel always suffices). -/
def decCharsFuel : Nat → Nat → List Char
  | 0, _ => []
  | fuel + 1, n =>
    if n < 10 then [Nat.digitChar n]
    else decCharsFuel fuel (n / 10) ++ [Nat.digitChar (n % 10)]

/-- Decimal digit characters of `n`, most significant first — the rendering
of printf `%` `PRIu32` (libc behaviour embedded directly). -/
def decChars (n : Nat) : List Char := decCharsFuel (n + 1) n

/-- printf `%` `PRIu32`: unpadded decimal. -/
def printfU32 (n : Nat) : String := ⟨decChars n⟩

/-- printf `%06` `PRIu32`: decimal, zero-padded to a minimum field width
of 6 (wider values print all their digits). -/
def printf06U32 (n : Nat) : String :=
  ⟨List.replicate (6 - (decChars n).length) '0' ++ decChars n⟩

/-- `NsecToUsec` (`command_processor.cpp`): `nsec / 1000`. -/
def NsecToUsec (nsec : Nat) : Nat := nsec / 1000

/-- `CommandProcessor::TimestampHeader::ToString`: the StringPrintf format
`"%" PRIu32 ".%06" PRIu32 " " ...` over (awake, up, wall) times. -/
def TimestampHeader.ToString (h : TimestampHeader) : String :=
  printfU32 h.since_boot_awake_only.secs ++ "." ++
    printf06U32 (NsecToUsec h.since_boot_awake_only.nsecs) ++ " " ++
  printfU32 h.since_boot_with_sleep.secs ++ "." ++
    printf06U32 (NsecToUsec h.since_boot_with_sleep.nsecs) ++ " " ++
  printfU32 h.since_epoch.secs ++ "." ++
    printf06U32 (NsecToUsec h.since_epoch.nsecs)

/-- Modelled from the spec: `protocol.h` is absent from src/.  The write-ASCII
opcode byte value (the two opcodes only need to be distinct bytes). -/
def kWriteAsciiMessage : Nat := 0

/-- Modelled from the spec: `protocol.h` is absent from src/.  The
dump-buffers opcode byte value. -/
def kDumpBuffers : Nat := 32

/-- Modelled from the spec: `sizeof(protocol::Command)` — a 1-byte opcode
plus a 16-bit payload length. -/
def sizeofCommand : Nat := 3

/-- Modelled from the spec: `protocol::kMaxMessageSize`, the fixed maximum
on-wire record size (4096 bytes). -/
def kMaxMessageSize : Nat := 4096

/-- `sizeof(CommandProcessor::TimestampHeader)` = 24 bytes. -/
def sizeofTimestampHeader : Nat := 24

/-- `EINTR` on Linux. -/
def EINTR : Nat := 4

/-- `SAFELY_CLAMP(input, T, lo, hi)` (`local_utils.h`): clamp into `[lo, hi]`. -/
def SafelyClamp (input lo hi : Nat) : Nat :=
  if input < lo then lo else if input > hi then hi else input

/-- Modelled from the spec: the Scratch Assembly Buffer's `AppendOrDie`
(`byte_buffer.h` is absent from src/): append is unconditional and exceeding
the compile-time capacity is fatal (`none`). -/
def appendOrDie (maxSize : Nat) (buf bytes : List Nat) : Option (List Nat) :=
  if buf.length + bytes.length ≤ maxSize then some (buf ++ bytes) else none

/-- The command processor's state: it owns one log buffer. -/
structure CommandProcessor where
  current_log_buffer : MessageBuffer
  deriving DecidableEq, Repr

/-- Result of a processor call: a returned boolean with the updated state, a
fatal `CHECK`/`LOG(FATAL)` abort, or undefined behaviour (control reaching
the end of a non-void function). -/
inductive Outcome where
  | ok (result : Bool) (cp : CommandProcessor)
  | fatal
  | undef
  deriving DecidableEq, Repr

/-- `CommandProcessor::CopyCommandToLog`: clamp the received length, check the
composite could ever fit (fatal otherwise), clear the buffer if it does not
fit now, re-check (fatal otherwise), stage timestamp header + clamped command
bytes in the scratch buffer, and append; a failed append is `LOG(FATAL)`.
`ts` stands for the three `os_->GetTimestamp` readings. -/
def CopyCommandToLog (cp : CommandProcessor) (ts : TimestampHeader)
    (command : List Nat) : Outcome :=
  let command_len := SafelyClamp command.length 0 kMaxMessageSize
  let total_size := sizeofTimestampHeader + command_len
  if ¬ MessageBuffer.CanFitEver cp.current_log_buffer total_size then .fatal
  else
    let buf1 := if MessageBuffer.CanFitNow cp.current_log_buffer total_size
      then cp.current_log_buffer
      else MessageBuffer.Clear cp.current_log_buffer
    if ¬ MessageBuffer.CanFitNow buf1 total_size then .fatal
    else
      match appendOrDie (sizeofTimestampHeader + kMaxMessageSize) []
          (encodeTimestampHeader ts) with
      | none => .fatal
      | some stage1 =>
        match appendOrDie (sizeofTimestampHeader + kMaxMessageSize) stage1
            (command.take command_len) with
        | none => .fatal
        | some message_buf =>
          match MessageBuffer.Append buf1
              (message_buf.take (SafelyClamp message_buf.length 0 65535)) with
          | none => .fatal
          | some (false, _) => .fatal
          | some (true, b2) => .ok true ⟨b2⟩

/-- One dumped line: the decoded timestamp header rendered by `ToString`,
plus the `'\n'` appended in `CommandProcessor::Dump`. -/
def lineFor (payload : List Nat) : String :=
  (decodeTimestampHeader payload).ToString ++ "\x0a"

/-- The loop of `CommandProcessor::Dump`: consume records one at a time;
for each, reinterpret its head as the timestamp header (fatal if the record
is shorter than the header), write the rendered line, skip onward on `EINTR`,
stop with `false` on any other nonzero errno.  `errs` is the oracle of errno
results of successive `os_->Write` calls; `i` indexes into it.  The `fuel`
bounds recursion; it never runs out for in-bounds cursors since every
iteration advances the read cursor. -/
def DumpLoop : Nat → MessageBuffer → List Nat → Nat →
    Option (Bool × List String × MessageBuffer)
  | 0, _, _, _ => none
  | fuel + 1, b, errs, i =>
    match MessageBuffer.ConsumeNextMessage b with
    | none => none
    | some ((none, _), b') => some (true, [], b')
    | some ((some payload, len), b') =>
      if len < sizeofTimestampHeader then none
      else
        let line := lineFor payload
        let err := errs.getD i 0
        if err = EINTR ∨ err = 0 then
          (DumpLoop fuel b' errs (i + 1)).bind fun rest =>
            some (rest.1, line :: rest.2.1, rest.2.2)
        else some (false, [line], b')

/-- `CommandProcessor::Dump`: run the loop under a `ScopedRewinder`, which
snapshots the read cursor on entry and restores it on every exit (modelled
from the spec: `MessageBuffer::ScopedRewinder` is declared in
`message_buffer.h`, absent from src/).  Returns the call's boolean result,
the strings handed to `os_->Write` in order, and the final buffer state. -/
def Dump (b : MessageBuffer) (errs : List Nat) :
    Option (Bool × List String × MessageBuffer) :=
  (DumpLoop (b.capacity + 1) b errs 0).bind fun res =>
    some (res.1, res.2.1, { res.2.2 with read_pos := b.read_pos })

/-- `CommandProcessor::ProcessCommand`: reject inputs shorter than a command
header; dispatch on the opcode byte (the first input byte, per the wire
format).  The switch has no default case and no code after it, so for any
other opcode control falls off the end of the non-void function: undefined
behaviour, modelled as `Outcome.undef`. -/
def ProcessCommand (cp : CommandProcessor) (input : List Nat)
    (ts : TimestampHeader) (errs : List Nat) : Outcome :=
  if input.length < sizeofCommand then .ok false cp
  else
    let opcode := input.getD 0 0
    if opcode = kWriteAsciiMessage then CopyCommandToLog cp ts input
    else if opcode = kDumpBuffers then
      match Dump cp.current_log_buffer errs with
      | none => .fatal
      | some (res, _, b') => .ok res ⟨b'⟩
    else .undef

theorem length_encodeTimestampHeader (h : TimestampHeader) :
    (encodeTimestampHeader h).length = 24 := by
  simp [encodeTimestampHeader, encodeTimestamp, encodeU32]

theorem SafelyClamp_zero_le (n hi : Nat) : SafelyClamp n 0 hi ≤ n ∨ n > hi := by
  unfold SafelyClamp
  split
  · omega
  · split <;> omega

theorem SafelyClamp_eq_min (n hi : Nat) : SafelyClamp n 0 hi = min n hi := by
  unfold SafelyClamp
  split
  · omega
  · split <;> omega

theorem CanFitEver_iff (b : MessageBuffer) (len : Nat) :
    MessageBuffer.CanFitEver b len = true ↔ len ≤ b.capacity - 2 := by
  simp [MessageBuffer.CanFitEver, MessageBuffer.GetHeaderSize]

/-- The storage path: under the could-ever-fit precondition the call returns
`true`; if the composite fits now it is appended after the existing records,
otherwise the buffer is cleared first and the composite is the only record. -/
theorem CopyCommandToLog_spec (cp : CommandProcessor) (rs : List (List Nat))
    (command : List Nat) (ts : TimestampHeader)
    (hR : Represents cp.current_log_buffer rs)
    (hEver : MessageBuffer.CanFitEver cp.current_log_buffer
      (sizeofTimestampHeader + SafelyClamp command.length 0 kMaxMessageSize) = true) :
    ∃ b2, CopyCommandToLog cp ts command = Outcome.ok true ⟨b2⟩ ∧
      ((MessageBuffer.CanFitNow cp.current_log_buffer
          (sizeofTimestampHeader + SafelyClamp command.length 0 kMaxMessageSize) = true ∧
        Represents b2 (rs ++ [encodeTimestampHeader ts ++
          command.take (SafelyClamp command.length 0 kMaxMessageSize)])) ∨
       (MessageBuffer.CanFitNow cp.current_log_buffer
          (sizeofTimestampHeader + SafelyClamp command.length 0 kMaxMessageSize) = false ∧
        Represents b2 [encodeTimestampHeader ts ++
          command.take (SafelyClamp command.length 0 kMaxMessageSize)])) := by
  obtain ⟨L, hL⟩ : ∃ L, SafelyClamp command.length 0 kMaxMessageSize = L := ⟨_, rfl⟩
  rw [hL] at hEver ⊢
  have hLle : L ≤ command.length := by
    rw [← hL, SafelyClamp_eq_min]
    exact Nat.min_le_left _ _
  have hLmax : L ≤ kMaxMessageSize := by
    rw [← hL, SafelyClamp_eq_min]
    exact Nat.min_le_right _ _
  have hmax : kMaxMessageSize = 4096 := rfl
  have hsz : sizeofTimestampHeader = 24 := rfl
  have htakelen : (command.take L).length = L := by
    rw [List.length_take, Nat.min_eq_left hLle]
  have hNlen : (encodeTimestampHeader ts ++ command.take L).length
      = sizeofTimestampHeader + L := by
    rw [List.length_append, length_encodeTimestampHeader, htakelen, hsz]
  have hA1 : appendOrDie (sizeofTimestampHeader + kMaxMessageSize) []
      (encodeTimestampHeader ts) = some (encodeTimestampHeader ts) := by
    have hcond : (([] : List Nat)).length + (encodeTimestampHeader ts).length ≤
        sizeofTimestampHeader + kMaxMessageSize := by
      rw [length_encodeTimestampHeader]
      simp [hsz, hmax]
    unfold appendOrDie
    rw [if_pos hcond, List.nil_append]
  have hA2 : appendOrDie (sizeofTimestampHeader + kMaxMessageSize)
      (encodeTimestampHeader ts) (command.take L) =
      some (encodeTimestampHeader ts ++ command.take L) := by
    have hcond : (encodeTimestampHeader ts).length + (command.take L).length ≤
        sizeofTimestampHeader + kMaxMessageSize := by
      rw [length_encodeTimestampHeader, htakelen, hsz, hmax]
      omega
    unfold appendOrDie
    rw [if_pos hcond]
  have hclampN : SafelyClamp (sizeofTimestampHeader + L) 0 65535
      = sizeofTimestampHeader + L := by
    rw [SafelyClamp_eq_min, Nat.min_eq_left]
    omega
  have htakeN : (encodeTimestampHeader ts ++ command.take L).take
      (sizeofTimestampHeader + L) = encodeTimestampHeader ts ++ command.take L :=
    List.take_of_length_le (by rw [hNlen])
  have hp0 : 0 < (encodeTimestampHeader ts ++ command.take L).length := by
    rw [hNlen]; omega
  have hp16 : (encodeTimestampHeader ts ++ command.take L).length < 65536 := by
    rw [hNlen]; omega
  by_cases hNow : MessageBuffer.CanFitNow cp.current_log_buffer
      (sizeofTimestampHeader + L) = true
  · obtain ⟨happ, hRep, _⟩ := Append_represents cp.current_log_buffer rs
      (encodeTimestampHeader ts ++ command.take L) hR hp0 hp16
      (by rw [hNlen]; exact hNow)
    refine ⟨_, ?_, Or.inl ⟨hNow, hRep⟩⟩
    unfold CopyCommandToLog
    rw [hL]
    rw [if_neg (not_not_intro hEver), if_pos hNow]
    rw [if_neg (not_not_intro hNow)]
    simp only [hA1, hA2, hNlen, hclampN, htakeN, happ]
  · have hNowF : MessageBuffer.CanFitNow cp.current_log_buffer
        (sizeofTimestampHeader + L) = false := by
      cases hx : MessageBuffer.CanFitNow cp.current_log_buffer (sizeofTimestampHeader + L)
      · rfl
      · exact absurd hx hNow
    have hCle := (CanFitEver_iff _ _).mp hEver
    have hcap2 : 2 ≤ cp.current_log_buffer.capacity := by omega
    have hfitClear : MessageBuffer.CanFitNow
        (MessageBuffer.Clear cp.current_log_buffer) (sizeofTimestampHeader + L) = true := by
      rw [CanFitNow_iff]
      simp only [MessageBuffer.Clear]
      omega
    have hRclear := Clear_represents cp.current_log_buffer rs hR
    obtain ⟨happ, hRep, _⟩ := Append_represents
      (MessageBuffer.Clear cp.current_log_buffer) []
      (encodeTimestampHeader ts ++ command.take L) hRclear hp0 hp16
      (by rw [hNlen]; exact hfitClear)
    rw [List.nil_append] at hRep
    refine ⟨_, ?_, Or.inr ⟨hNowF, hRep⟩⟩
    unfold CopyCommandToLog
    rw [hL]
    rw [if_neg (not_not_intro hEver), if_neg hNow]
    rw [if_neg (not_not_intro hfitClear)]
    simp only [hA1, hA2, hNlen, hclampN, htakeN, happ]

/-! ### The dump loop: framing and refinement to the per-record model -/

theorem ConsumeNextMessage_frame (b : MessageBuffer) (res : Option (List Nat) × Nat)
    (b' : MessageBuffer) (h : MessageBuffer.ConsumeNextMessage b = some (res, b')) :
    b'.data = b.data ∧ b'.write_pos = b.write_pos ∧ b'.capacity = b.capacity := by
  simp only [MessageBuffer.ConsumeNextMessage] at h
  split at h
  · simp only [Option.some.injEq, Prod.mk.injEq] at h
    rw [← h.2]
    exact ⟨rfl, rfl, rfl⟩
  · split at h
    · exact absurd h (by simp)
    · split at h
      · exact absurd h (by simp)
      · simp only [Option.some.injEq, Prod.mk.injEq] at h
        rw [← h.2]
        exact ⟨rfl, rfl, rfl⟩

theorem DumpLoop_frame : ∀ (fuel : Nat) (b : MessageBuffer) (errs : List Nat) (i : Nat)
    (ok : Bool) (out : List String) (b' : MessageBuffer),
    DumpLoop fuel b errs i = some (ok, out, b') →
    b'.data = b.data ∧ b'.write_pos = b.write_pos ∧ b'.capacity = b.capacity
  | 0, b, errs, i, ok, out, b', h => by simp [DumpLoop] at h
  | fuel + 1, b, errs, i, ok, out, b', h => by
    unfold DumpLoop at h
    cases hc : MessageBuffer.ConsumeNextMessage b with
    | none => rw [hc] at h; simp at h
    | some x =>
      obtain ⟨res, b1⟩ := x
      have hframe := ConsumeNextMessage_frame b res b1 hc
      rw [hc] at h
      obtain ⟨pl, len⟩ := res
      cases pl with
      | none =>
        simp only [Option.some.injEq, Prod.mk.injEq] at h
        rw [← h.2.2]
        exact hframe
      | some payload =>
        simp only at h
        split at h
        · exact absurd h (by simp)
        · split at h
          · cases hrec : DumpLoop fuel b1 errs (i + 1) with
            | none => rw [hrec] at h; simp at h
            | some rest =>
              rw [hrec] at h
              simp only [Option.some_bind, Option.some.injEq, Prod.mk.injEq] at h
              have hrecframe := DumpLoop_frame fuel b1 errs (i + 1)
                rest.1 rest.2.1 rest.2.2 (by rw [hrec])
              rw [← h.2.2]
              exact ⟨hrecframe.1.trans hframe.1, hrecframe.2.1.trans hframe.2.1,
                hrecframe.2.2.trans hframe.2.2⟩
          · simp only [Option.some.injEq, Prod.mk.injEq] at h
            rw [← h.2.2]
            exact hframe

/-- Specification-side model of the dump protocol, following the claim text:
for each stored record in order, one line is produced and written; a write
reporting `EINTR` moves on to the next record without retrying; any other
nonzero errno stops the dump immediately with result `false`; reaching the
end of the store (zero records included) yields `true`. -/
def dumpRecords : List (List Nat) → List Nat → Nat → Bool × List String
  | [], _, _ => (true, [])
  | p :: rest, errs, i =>
    let line := lineFor p
    let err := errs.getD i 0
    if err = EINTR ∨ err = 0 then
      let r := dumpRecords rest errs (i + 1)
      (r.1, line :: r.2)
    else (false, [line])

theorem DumpLoop_spec : ∀ (rs : List (List Nat)) (fuel : Nat) (b : MessageBuffer)
    (errs : List Nat) (i : Nat),
    Represents b rs → (∀ p ∈ rs, sizeofTimestampHeader ≤ p.length) →
    rs.length < fuel →
    ∃ b', DumpLoop fuel b errs i =
      some ((dumpRecords rs errs i).1, (dumpRecords rs errs i).2, b')
  | [], fuel, b, errs, i, hR, _, hfuel => by
    cases fuel with
    | zero => omega
    | succ fuel =>
      refine ⟨b, ?_⟩
      unfold DumpLoop
      rw [ConsumeNextMessage_nil b hR]
      simp [dumpRecords]
  | p :: rest, fuel, b, errs, i, hR, h24, hfuel => by
    cases fuel with
    | zero => omega
    | succ fuel =>
      obtain ⟨hc, hR'⟩ := ConsumeNextMessage_cons b p rest hR
      have hp24 : sizeofTimestampHeader ≤ p.length := h24 p (List.mem_cons_self p rest)
      have h24' : ∀ q ∈ rest, sizeofTimestampHeader ≤ q.length :=
        fun q hq => h24 q (List.mem_cons_of_mem p hq)
      unfold DumpLoop
      rw [hc]
      simp only
      rw [if_neg (by omega)]
      by_cases herr : errs.getD i 0 = EINTR ∨ errs.getD i 0 = 0
      · rw [if_pos herr]
        obtain ⟨b'', hrec⟩ := DumpLoop_spec rest fuel _ errs (i + 1) hR' h24'
          (by simp only [List.length_cons] at hfuel; omega)
        rw [hrec]
        refine ⟨b'', ?_⟩
        simp only [Option.some_bind]
        simp only [dumpRecords]
        rw [if_pos herr]
      · rw [if_neg herr]
        refine ⟨{ b with read_pos := b.read_pos + 2 + p.length }, ?_⟩
        simp only [dumpRecords]
        rw [if_neg herr]

/-- `Dump` refines the per-record model and, thanks to the scoped rewinder,
returns the store exactly as it found it. -/
theorem Dump_spec (b : MessageBuffer) (rs : List (List Nat)) (errs : List Nat)
    (hR : Represents b rs) (h24 : ∀ p ∈ rs, sizeofTimestampHeader ≤ p.length) :
    Dump b errs = some ((dumpRecords rs errs 0).1, (dumpRecords rs errs 0).2, b) := by
  have hfuel : rs.length < b.capacity + 1 := by
    have h1 := length_le_length_encodeRecords rs
    obtain ⟨_, hrw, hwc, _, _⟩ := hR
    omega
  obtain ⟨b', hloop⟩ := DumpLoop_spec rs (b.capacity + 1) b errs 0 hR h24 hfuel
  have hframe := DumpLoop_frame _ _ _ _ _ _ _ hloop
  unfold Dump
  rw [hloop]
  simp only [Option.some_bind, Option.some.injEq, Prod.mk.injEq, true_and]
  obtain ⟨h1, h2, h3⟩ := hframe
  cases b' with
  | mk d c r w =>
    cases b with
    | mk d0 c0 r0 w0 =>
      simp only at h1 h2 h3
      simp [h1, h2, h3]

/-- On every exit, failed or successful, the dump leaves the store exactly
as it found it (the rewinder restores the read cursor; nothing else moves). -/
theorem Dump_restores (b : MessageBuffer) (errs : List Nat) (ok : Bool)
    (out : List String) (b' : MessageBuffer)
    (h : Dump b errs = some (ok, out, b')) : b' = b := by
  unfold Dump at h
  cases hloop : DumpLoop (b.capacity + 1) b errs 0 with
  | none => rw [hloop] at h; simp at h
  | some res =>
    rw [hloop] at h
    obtain ⟨r1, r2, r3⟩ := res
    have hframe := DumpLoop_frame _ _ _ _ _ _ _ hloop
    simp only [Option.some_bind, Option.some.injEq, Prod.mk.injEq] at h
    rw [← h.2.2]
    obtain ⟨h1, h2, h3⟩ := hframe
    cases r3 with
    | mk d c r w =>
      cases b with
      | mk d0 c0 r0 w0 =>
        simp only at h1 h2 h3
        simp [h1, h2, h3]

/-! ### Claims about the command processor -/

theorem ProcessCommand_write (cp : CommandProcessor) (input : List Nat)
    (ts : TimestampHeader) (errs : List Nat)
    (hlen : ¬ input.length < sizeofCommand)
    (hop : input.getD 0 0 = kWriteAsciiMessage) :
    ProcessCommand cp input ts errs = CopyCommandToLog cp ts input := by
  simp only [ProcessCommand]
  rw [if_neg hlen, if_pos hop]

theorem CopyCommandToLog_fatal (cp : CommandProcessor) (ts : TimestampHeader)
    (command : List Nat)
    (h : MessageBuffer.CanFitEver cp.current_log_buffer
      (sizeofTimestampHeader + SafelyClamp command.length 0 kMaxMessageSize) = false) :
    CopyCommandToLog cp ts command = Outcome.fatal := by
  have hcond : ¬ (MessageBuffer.CanFitEver cp.current_log_buffer
      (sizeofTimestampHeader + SafelyClamp command.length 0 kMaxMessageSize) = true) := by
    rw [h]
    simp
  unfold CopyCommandToLog
  rw [if_pos hcond]

/-- C4: a write-message composite that could ever fit in an empty store but
does not fit in the current free space causes the storage path to clear the
whole buffer (dropping all prior records), after which the append succeeds
and the call returns `true`; the store then holds exactly the one new
composite — no partial eviction. -/
theorem eviction_on_overflow (cp : CommandProcessor) (rs : List (List Nat))
    (command : List Nat) (ts : TimestampHeader)
    (hR : Represents cp.current_log_buffer rs)
    (hle : sizeofCommand ≤ command.length)
    (hEver : MessageBuffer.CanFitEver cp.current_log_buffer
      (sizeofTimestampHeader + SafelyClamp command.length 0 kMaxMessageSize) = true)
    (hNow : MessageBuffer.CanFitNow cp.current_log_buffer
      (sizeofTimestampHeader + SafelyClamp command.length 0 kMaxMessageSize) = false) :
    ∃ b2, CopyCommandToLog cp ts command = Outcome.ok true ⟨b2⟩ ∧
      Represents b2 [encodeTimestampHeader ts ++
        command.take (SafelyClamp command.length 0 kMaxMessageSize)] := by
  obtain ⟨b2, heq, hdis⟩ := CopyCommandToLog_spec cp rs command ts hR hEver
  rcases hdis with ⟨hT, _⟩ | ⟨_, hRep⟩
  · rw [hNow] at hT
    exact Bool.noConfusion hT
  · exact ⟨b2, heq, hRep⟩

/-- The all-zero timestamp triple. -/
def tsZero : TimestampHeader := ⟨⟨0, 0⟩, ⟨0, 0⟩, ⟨0, 0⟩⟩

/-- A store of capacity 30 holding one 10-byte record, 18 bytes free. -/
def bufFull30 : MessageBuffer :=
  ⟨[10, 0] ++ (List.replicate 10 5 ++ List.replicate 18 0), 30, 0, 12⟩

/-- Witness for `eviction_on_overflow`: capacity 30, one 10-byte record
stored, then a 3-byte write command whose 27-byte composite fits ever
(27 ≤ 28) but not now (27 > 16). -/
theorem eviction_on_overflow_witness :
    (Represents bufFull30 [List.replicate 10 5] ∧
      sizeofCommand ≤ ([0, 0, 0] : List Nat).length ∧
      MessageBuffer.CanFitEver bufFull30
        (sizeofTimestampHeader + SafelyClamp ([0, 0, 0] : List Nat).length 0 kMaxMessageSize)
        = true ∧
      MessageBuffer.CanFitNow bufFull30
        (sizeofTimestampHeader + SafelyClamp ([0, 0, 0] : List Nat).length 0 kMaxMessageSize)
        = false) ∧
    (∃ b2, CopyCommandToLog ⟨bufFull30⟩ tsZero [0, 0, 0] = Outcome.ok true ⟨b2⟩ ∧
      Represents b2 [encodeTimestampHeader tsZero ++ [0, 0, 0]]) :=
  ⟨⟨by decide, by decide, by decide, by decide⟩,
    eviction_on_overflow ⟨bufFull30⟩ [List.replicate 10 5] [0, 0, 0] tsZero
      (by decide) (by decide) (by decide) (by decide)⟩

/-- C6 (code defect): an input of at least header size whose opcode byte (7)
is neither `kWriteAsciiMessage` nor `kDumpBuffers` makes control fall off the
end of the non-void `ProcessCommand` switch — undefined behaviour, not the
well-defined `false` return described by the spec. -/
theorem processCommand_unknown_opcode_undefined :
    ProcessCommand ⟨mkBuffer 30⟩ [7, 0, 0] tsZero [] = Outcome.undef := by decide

/-- C7: a write command longer than `kMaxMessageSize` is still accepted
(`true`) and stored truncated to `kMaxMessageSize` bytes after the timestamp
header; more generally the storage path returns `true` for every command that
reaches it (given the configuration-level could-ever-fit invariant). -/
theorem oversized_input_clamp (cp : CommandProcessor) (rs : List (List Nat))
    (input : List Nat) (ts : TimestampHeader) (errs : List Nat)
    (hR : Represents cp.current_log_buffer rs)
    (hop : input.getD 0 0 = kWriteAsciiMessage)
    (hbig : kMaxMessageSize < input.length)
    (hEver : MessageBuffer.CanFitEver cp.current_log_buffer
      (sizeofTimestampHeader + kMaxMessageSize) = true) :
    (∃ cp' rs', ProcessCommand cp input ts errs = Outcome.ok true cp' ∧
      Represents cp'.current_log_buffer rs' ∧
      rs'.getLast? = some (encodeTimestampHeader ts ++ input.take kMaxMessageSize)) ∧
    (∀ command : List Nat,
      MessageBuffer.CanFitEver cp.current_log_buffer
        (sizeofTimestampHeader + SafelyClamp command.length 0 kMaxMessageSize) = true →
      ∃ cp'', CopyCommandToLog cp ts command = Outcome.ok true cp'') := by
  have hmax : kMaxMessageSize = 4096 := rfl
  have hsc : sizeofCommand = 3 := rfl
  have hclampbig : SafelyClamp input.length 0 kMaxMessageSize = kMaxMessageSize := by
    unfold SafelyClamp
    rw [if_neg (by omega), if_pos hbig]
  constructor
  · have hlen : ¬ input.length < sizeofCommand := by omega
    obtain ⟨b2, heq, hdis⟩ := CopyCommandToLog_spec cp rs input ts hR
      (by rw [hclampbig]; exact hEver)
    rw [hclampbig] at hdis
    have hP : ProcessCommand cp input ts errs = Outcome.ok true ⟨b2⟩ := by
      rw [ProcessCommand_write cp input ts errs hlen hop]
      exact heq
    rcases hdis with ⟨_, hRep⟩ | ⟨_, hRep⟩
    · exact ⟨⟨b2⟩, rs ++ [encodeTimestampHeader ts ++ input.take kMaxMessageSize],
        hP, hRep, List.getLast?_concat rs⟩
    · exact ⟨⟨b2⟩, [encodeTimestampHeader ts ++ input.take kMaxMessageSize],
        hP, hRep, rfl⟩
  · intro command hEver2
    obtain ⟨b2, heq, _⟩ := CopyCommandToLog_spec cp rs command ts hR hEver2
    exact ⟨⟨b2⟩, heq⟩

/-- A fresh store of capacity 4122 (just enough for a maximal composite). -/
def bufBig : MessageBuffer := mkBuffer 4122

/-- An oversized write command: opcode byte 0, 4097 bytes in total. -/
def inputBig : List Nat := 0 :: List.replicate 4096 0

theorem Represents_mkBuffer (C : Nat) : Represents (mkBuffer C) [] := by
  refine ⟨by simp [mkBuffer], rfl, by simp [mkBuffer], rfl, ?_⟩
  intro p hp
  exact absurd hp (List.not_mem_nil p)

/-- Witness for `oversized_input_clamp`: a 4097-byte write command into a
fresh store of capacity 4122. -/
theorem oversized_input_clamp_witness :
    (Represents bufBig [] ∧ inputBig.getD 0 0 = kWriteAsciiMessage ∧
      kMaxMessageSize < inputBig.length ∧
      MessageBuffer.CanFitEver bufBig (sizeofTimestampHeader + kMaxMessageSize) = true) ∧
    (∃ cp' rs', ProcessCommand ⟨bufBig⟩ inputBig tsZero [] = Outcome.ok true cp' ∧
      Represents cp'.current_log_buffer rs' ∧
      rs'.getLast? = some (encodeTimestampHeader tsZero ++ inputBig.take kMaxMessageSize)) :=
  ⟨⟨Represents_mkBuffer 4122, rfl,
      by simp only [inputBig, List.length_cons, List.length_replicate, kMaxMessageSize]; omega,
      by decide⟩,
    (oversized_input_clamp ⟨bufBig⟩ [] inputBig tsZero [] (Represents_mkBuffer 4122)
      rfl (by simp only [inputBig, List.length_cons, List.length_replicate,
        kMaxMessageSize]; omega) (by decide)).1⟩

theorem dumpRecords_no_errors : ∀ (rs : List (List Nat)) (i : Nat),
    dumpRecords rs [] i = (true, rs.map lineFor)
  | [], _ => rfl
  | p :: rest, i => by
    simp only [dumpRecords, List.getD_nil, List.map_cons]
    rw [if_pos (Or.inr trivial), dumpRecords_no_errors rest (i + 1)]

/-- C2: dumping a store is non-destructive: on every exit (success, write
failure, either way) the store is returned exactly as it was; an error-free
dump of a non-empty store emits one line per record, and dumping again after
any dump — including one that failed partway — reproduces byte-identical
output. -/
theorem dump_idempotent (b : MessageBuffer) (rs : List (List Nat))
    (hR : Represents b rs) (h24 : ∀ p ∈ rs, sizeofTimestampHeader ≤ p.length)
    (hne : rs ≠ []) :
    (∀ errs ok out b', Dump b errs = some (ok, out, b') → b' = b) ∧
    (∃ out, out ≠ [] ∧ Dump b [] = some (true, out, b) ∧
      ∀ errs ok out1 b1, Dump b errs = some (ok, out1, b1) →
        Dump b1 [] = some (true, out, b1)) := by
  have hfull : Dump b [] = some (true, rs.map lineFor, b) := by
    have h := Dump_spec b rs [] hR h24
    rw [dumpRecords_no_errors rs 0] at h
    exact h
  refine ⟨fun errs ok out b' h => Dump_restores b errs ok out b' h,
    rs.map lineFor, ?_, hfull, ?_⟩
  · intro hcon
    exact hne (List.map_eq_nil_iff.mp hcon)
  · intro errs ok out1 b1 h1
    rw [Dump_restores b errs ok out1 b1 h1]
    exact hfull

/-- C5: the dump refines the per-record error-handling model `dumpRecords`:
`EINTR` skips to the next record, any other nonzero errno stops immediately
with `false`, reaching the end (zero records included) yields `true`; in all
cases the store is left unchanged. -/
theorem dump_error_handling (b : MessageBuffer) (rs : List (List Nat))
    (errs : List Nat)
    (hR : Represents b rs) (h24 : ∀ p ∈ rs, sizeofTimestampHeader ≤ p.length) :
    Dump b errs = some ((dumpRecords rs errs 0).1, (dumpRecords rs errs 0).2, b) ∧
    (rs = [] → Dump b errs = some (true, [], b)) := by
  have h := Dump_spec b rs errs hR h24
  refine ⟨h, ?_⟩
  intro hnil
  subst hnil
  simpa [dumpRecords] using h

/-- A store of capacity 30 holding one 24-byte record (the minimum that
carries a full timestamp header). -/
def bufOneRec : MessageBuffer :=
  ⟨[24, 0] ++ (List.replicate 24 9 ++ List.replicate 4 0), 30, 0, 26⟩

/-- Witness for `dump_idempotent`: one stored 24-byte record. -/
theorem dump_idempotent_witness :
    (Represents bufOneRec [List.replicate 24 9] ∧
      (∀ p ∈ [List.replicate 24 9], sizeofTimestampHeader ≤ p.length) ∧
      [List.replicate 24 9] ≠ ([] : List (List Nat))) ∧
    ((∀ errs ok out b', Dump bufOneRec errs = some (ok, out, b') → b' = bufOneRec) ∧
     (∃ out, out ≠ [] ∧ Dump bufOneRec [] = some (true, out, bufOneRec) ∧
       ∀ errs ok out1 b1, Dump bufOneRec errs = some (ok, out1, b1) →
         Dump b1 [] = some (true, out, b1))) :=
  ⟨⟨by decide, by decide, by decide⟩,
    dump_idempotent bufOneRec [List.replicate 24 9] (by decide) (by decide) (by decide)⟩

/-- Witness for `dump_error_handling`: one stored record, first write failing
with errno 5 (not `EINTR`). -/
theorem dump_error_handling_witness :
    (Represents bufOneRec [List.replicate 24 9] ∧
      (∀ p ∈ [List.replicate 24 9], sizeofTimestampHeader ≤ p.length)) ∧
    (Dump bufOneRec [5] =
      some ((dumpRecords [List.replicate 24 9] [5] 0).1,
        (dumpRecords [List.replicate 24 9] [5] 0).2, bufOneRec) ∧
     ([List.replicate 24 9] = ([] : List (List Nat)) →
       Dump bufOneRec [5] = some (true, [], bufOneRec))) :=
  ⟨⟨by decide, by decide⟩,
    dump_error_handling bufOneRec [List.replicate 24 9] [5] (by decide) (by decide)⟩

/-- Every record in the store is long enough to carry a timestamp header plus
a command header — the shape of every record the storage path ever appends. -/
def GoodStore (b : MessageBuffer) : Prop :=
  ∃ rs, Represents b rs ∧
    ∀ p ∈ rs, sizeofTimestampHeader + sizeofCommand ≤ p.length

/-- C10: records appended by the storage path are at least
`sizeof(TimestampHeader) + sizeof(protocol::Command)` bytes long (shorter
inputs are rejected before the path is reached), this shape is preserved by
every successful `ProcessCommand` call, and on such stores the dump's
`TimestampHeader` extraction is always in bounds — its fatal branch (and any
other fatal exit of the dump) is unreachable. -/
theorem stored_records_bound (cp : CommandProcessor)
    (h : GoodStore cp.current_log_buffer) :
    (∀ input ts errs r cp', ProcessCommand cp input ts errs = Outcome.ok r cp' →
      GoodStore cp'.current_log_buffer) ∧
    (∀ errs, ∃ ok out,
      Dump cp.current_log_buffer errs = some (ok, out, cp.current_log_buffer)) := by
  obtain ⟨rs, hR, h27⟩ := h
  have hsz : sizeofTimestampHeader = 24 := rfl
  have hsc : sizeofCommand = 3 := rfl
  have hmax : kMaxMessageSize = 4096 := rfl
  have h24 : ∀ p ∈ rs, sizeofTimestampHeader ≤ p.length := by
    intro p hp
    have := h27 p hp
    omega
  constructor
  · intro input ts errs r cp' hP
    by_cases hlen : input.length < sizeofCommand
    · unfold ProcessCommand at hP
      rw [if_pos hlen] at hP
      injection hP with h1 h2
      rw [← h2]
      exact ⟨rs, hR, h27⟩
    · by_cases hop : input.getD 0 0 = kWriteAsciiMessage
      · rw [ProcessCommand_write cp input ts errs hlen hop] at hP
        by_cases hEver : MessageBuffer.CanFitEver cp.current_log_buffer
            (sizeofTimestampHeader + SafelyClamp input.length 0 kMaxMessageSize) = true
        · obtain ⟨b2, heq, hdis⟩ := CopyCommandToLog_spec cp rs input ts hR hEver
          rw [heq] at hP
          injection hP with h1 h2
          rw [← h2]
          have hL3 : sizeofCommand ≤ SafelyClamp input.length 0 kMaxMessageSize := by
            unfold SafelyClamp
            split
            · omega
            · split <;> omega
          have hLle : SafelyClamp input.length 0 kMaxMessageSize ≤ input.length := by
            rw [SafelyClamp_eq_min]
            exact Nat.min_le_left _ _
          have hrecord : sizeofTimestampHeader + sizeofCommand ≤
              (encodeTimestampHeader ts ++
                input.take (SafelyClamp input.length 0 kMaxMessageSize)).length := by
            rw [List.length_append, length_encodeTimestampHeader, List.length_take,
              Nat.min_eq_left hLle]
            omega
          rcases hdis with ⟨_, hRep⟩ | ⟨_, hRep⟩
          · refine ⟨_, hRep, ?_⟩
            intro q hq
            rcases List.mem_append.mp hq with hq | hq
            · exact h27 q hq
            · have hq' : q = encodeTimestampHeader ts ++
                  input.take (SafelyClamp input.length 0 kMaxMessageSize) := by
                simpa using hq
              rw [hq']
              exact hrecord
          · refine ⟨_, hRep, ?_⟩
            intro q hq
            have hq' : q = encodeTimestampHeader ts ++
                input.take (SafelyClamp input.length 0 kMaxMessageSize) := by
              simpa using hq
            rw [hq']
            exact hrecord
        · have hEverF : MessageBuffer.CanFitEver cp.current_log_buffer
              (sizeofTimestampHeader + SafelyClamp input.length 0 kMaxMessageSize)
              = false := by
            cases hx : MessageBuffer.CanFitEver cp.current_log_buffer
                (sizeofTimestampHeader + SafelyClamp input.length 0 kMaxMessageSize)
            · rfl
            · exact absurd hx hEver
          rw [CopyCommandToLog_fatal cp ts input hEverF] at hP
          exact Outcome.noConfusion hP
      · by_cases hop2 : input.getD 0 0 = kDumpBuffers
        · have hdump := Dump_spec cp.current_log_buffer rs errs hR h24
          unfold ProcessCommand at hP
          rw [if_neg hlen, if_neg hop, if_pos hop2, hdump] at hP
          simp only at hP
          injection hP with h1 h2
          rw [← h2]
          exact ⟨rs, hR, h27⟩
        · unfold ProcessCommand at hP
          rw [if_neg hlen, if_neg hop, if_neg hop2] at hP
          exact Outcome.noConfusion hP
  · intro errs
    exact ⟨_, _, Dump_spec cp.current_log_buffer rs errs hR h24⟩

/-- Witness for `stored_records_bound`: the empty store of capacity 30. -/
theorem stored_records_bound_witness :
    GoodStore (mkBuffer 30) ∧
    ((∀ input ts errs r cp',
        ProcessCommand ⟨mkBuffer 30⟩ input ts errs = Outcome.ok r cp' →
        GoodStore cp'.current_log_buffer) ∧
     (∀ errs, ∃ ok out, Dump (mkBuffer 30) errs = some (ok, out, mkBuffer 30))) :=
  ⟨⟨[], Represents_mkBuffer 30, by simp⟩,
    stored_records_bound ⟨mkBuffer 30⟩ ⟨[], Represents_mkBuffer 30, by simp⟩⟩

/-! ### Claim C8: the dump line format -/

theorem decCharsFuel_irrel : ∀ (fuel n : Nat), n < fuel →
    decCharsFuel fuel n = decCharsFuel (n + 1) n
  | 0, n, h => by omega
  | fuel + 1, n, h => by
    by_cases h10 : n < 10
    · simp [decCharsFuel, h10]
    · have hdiv : n / 10 < n := Nat.div_lt_self (by omega) (by omega)
      have e1 : decCharsFuel (fuel + 1) n =
          decCharsFuel fuel (n / 10) ++ [Nat.digitChar (n % 10)] := by
        simp [decCharsFuel, h10]
      have e2 : decCharsFuel (n + 1) n =
          decCharsFuel n (n / 10) ++ [Nat.digitChar (n % 10)] := by
        simp [decCharsFuel, h10]
      rw [e1, e2, decCharsFuel_irrel fuel (n / 10) (by omega),
        decCharsFuel_irrel n (n / 10) (by omega)]

theorem decChars_lt (n : Nat) (h : n < 10) : decChars n = [Nat.digitChar n] := by
  simp [decChars, decCharsFuel, h]

theorem decChars_ge (n : Nat) (h : 10 ≤ n) :
    decChars n = decChars (n / 10) ++ [Nat.digitChar (n % 10)] := by
  have h10 : ¬ n < 10 := by omega
  have hdiv : n / 10 < n := Nat.div_lt_self (by omega) (by omega)
  show decCharsFuel (n + 1) n = decCharsFuel (n / 10 + 1) (n / 10) ++ [Nat.digitChar (n % 10)]
  rw [show decCharsFuel (n + 1) n = if n < 10 then [Nat.digitChar n]
      else decCharsFuel n (n / 10) ++ [Nat.digitChar (n % 10)] from rfl]
  rw [if_neg h10, decCharsFuel_irrel n (n / 10) (by omega)]

theorem decChars_digits2 (u : Nat) (h1 : 10 ≤ u) (h2 : u < 100) :
    decChars u = [Nat.digitChar (u / 10), Nat.digitChar (u % 10)] := by
  rw [decChars_ge u h1, decChars_lt (u / 10) (by omega)]
  rfl

theorem decChars_digits3 (u : Nat) (h1 : 100 ≤ u) (h2 : u < 1000) :
    decChars u = [Nat.digitChar (u / 100), Nat.digitChar (u / 10 % 10),
      Nat.digitChar (u % 10)] := by
  rw [decChars_ge u (by omega), decChars_digits2 (u / 10) (by omega) (by omega)]
  have e : u / 10 / 10 = u / 100 := by omega
  rw [e]
  rfl

theorem decChars_digits4 (u : Nat) (h1 : 1000 ≤ u) (h2 : u < 10000) :
    decChars u = [Nat.digitChar (u / 1000), Nat.digitChar (u / 100 % 10),
      Nat.digitChar (u / 10 % 10), Nat.digitChar (u % 10)] := by
  rw [decChars_ge u (by omega), decChars_digits3 (u / 10) (by omega) (by omega)]
  have e1 : u / 10 / 100 = u / 1000 := by omega
  have e2 : u / 10 / 10 = u / 100 := by omega
  rw [e1, e2]
  rfl

theorem decChars_digits5 (u : Nat) (h1 : 10000 ≤ u) (h2 : u < 100000) :
    decChars u = [Nat.digitChar (u / 10000), Nat.digitChar (u / 1000 % 10),
      Nat.digitChar (u / 100 % 10), Nat.digitChar (u / 10 % 10),
      Nat.digitChar (u % 10)] := by
  rw [decChars_ge u (by omega), decChars_digits4 (u / 10) (by omega) (by omega)]
  have e1 : u / 10 / 1000 = u / 10000 := by omega
  have e2 : u / 10 / 100 = u / 1000 := by omega
  have e3 : u / 10 / 10 = u / 100 := by omega
  rw [e1, e2, e3]
  rfl

theorem decChars_digits6 (u : Nat) (h1 : 100000 ≤ u) (h2 : u < 1000000) :
    decChars u = [Nat.digitChar (u / 100000), Nat.digitChar (u / 10000 % 10),
      Nat.digitChar (u / 1000 % 10), Nat.digitChar (u / 100 % 10),
      Nat.digitChar (u / 10 % 10), Nat.digitChar (u % 10)] := by
  rw [decChars_ge u (by omega), decChars_digits5 (u / 10) (by omega) (by omega)]
  have e1 : u / 10 / 10000 = u / 100000 := by omega
  have e2 : u / 10 / 1000 = u / 10000 := by omega
  have e3 : u / 10 / 100 = u / 1000 := by omega
  have e4 : u / 10 / 10 = u / 100 := by omega
  rw [e1, e2, e3, e4]
  rfl

/-- The claim's rendering of the microsecond field: the value as exactly six
decimal digits, zero-padded at the front. -/
def sixDigitChars (u : Nat) : List Char :=
  [Nat.digitChar (u / 100000 % 10), Nat.digitChar (u / 10000 % 10),
   Nat.digitChar (u / 1000 % 10), Nat.digitChar (u / 100 % 10),
   Nat.digitChar (u / 10 % 10), Nat.digitChar (u % 10)]

/-- For values below 10^6 the printf minimum-width-6 zero padding renders
exactly six digits — the claim's fixed-width field. -/
theorem pad6_eq_sixDigitChars (u : Nat) (h : u < 1000000) :
    List.replicate (6 - (decChars u).length) '0' ++ decChars u = sixDigitChars u := by
  by_cases c1 : u < 10
  · rw [decChars_lt u c1]
    have e1 : u / 100000 % 10 = 0 := by omega
    have e2 : u / 10000 % 10 = 0 := by omega
    have e3 : u / 1000 % 10 = 0 := by omega
    have e4 : u / 100 % 10 = 0 := by omega
    have e5 : u / 10 % 10 = 0 := by omega
    have e6 : u % 10 = u := by omega
    unfold sixDigitChars
    rw [e1, e2, e3, e4, e5, e6]
    rfl
  · by_cases c2 : u < 100
    · rw [decChars_digits2 u (by omega) c2]
      have e1 : u / 100000 % 10 = 0 := by omega
      have e2 : u / 10000 % 10 = 0 := by omega
      have e3 : u / 1000 % 10 = 0 := by omega
      have e4 : u / 100 % 10 = 0 := by omega
      have e5 : u / 10 % 10 = u / 10 := by omega
      unfold sixDigitChars
      rw [e1, e2, e3, e4, e5]
      rfl
    · by_cases c3 : u < 1000
      · rw [decChars_digits3 u (by omega) c3]
        have e1 : u / 100000 % 10 = 0 := by omega
        have e2 : u / 10000 % 10 = 0 := by omega
        have e3 : u / 1000 % 10 = 0 := by omega
        have e4 : u / 100 % 10 = u / 100 := by omega
        unfold sixDigitChars
        rw [e1, e2, e3, e4]
        rfl
      · by_cases c4 : u < 10000
        · rw [decChars_digits4 u (by omega) c4]
          have e1 : u / 100000 % 10 = 0 := by omega
          have e2 : u / 10000 % 10 = 0 := by omega
          have e3 : u / 1000 % 10 = u / 1000 := by omega
          unfold sixDigitChars
          rw [e1, e2, e3]
          rfl
        · by_cases c5 : u < 100000
          · rw [decChars_digits5 u (by omega) c5]
            have e1 : u / 100000 % 10 = 0 := by omega
            have e2 : u / 10000 % 10 = u / 10000 := by omega
            unfold sixDigitChars
            rw [e1, e2]
            rfl
          · rw [decChars_digits6 u (by omega) h]
            have e1 : u / 100000 % 10 = u / 100000 := by omega
            unfold sixDigitChars
            rw [e1]
            rfl

/-- Specification-side rendering of one dump line, following the claim:
three timestamps in order (suspend-stopping monotonic, boot-inclusive
monotonic, wall clock), each as unpadded decimal seconds, a dot, the value
`nsecs / 1000` as exactly six zero-padded decimal digits, joined by single
spaces, with a trailing newline. -/
def specTimestampLine (h : TimestampHeader) : String :=
  (⟨decChars h.since_boot_awake_only.secs⟩ : String) ++ "." ++
    (⟨sixDigitChars (h.since_boot_awake_only.nsecs / 1000)⟩ : String) ++ " " ++
  (⟨decChars h.since_boot_with_sleep.secs⟩ : String) ++ "." ++
    (⟨sixDigitChars (h.since_boot_with_sleep.nsecs / 1000)⟩ : String) ++ " " ++
  (⟨decChars h.since_epoch.secs⟩ : String) ++ "." ++
    (⟨sixDigitChars (h.since_epoch.nsecs / 1000)⟩ : String) ++ "\x0a"

/-- C8: for each dumped record, the emitted line is exactly
`"<sec>.<usec6> <sec>.<usec6> <sec>.<usec6>\n"`: the three decoded
timestamps in the order (awake monotonic, boot monotonic, wall clock),
seconds as unpadded decimal, microseconds as `nsecs / 1000` zero-padded to
exactly six digits, single spaces between, trailing newline — given the
host-clock guarantee `nsecs < 10^9`. -/
theorem dump_line_format (p : List Nat)
    (h1 : (decodeTimestampHeader p).since_boot_awake_only.nsecs < 1000000000)
    (h2 : (decodeTimestampHeader p).since_boot_with_sleep.nsecs < 1000000000)
    (h3 : (decodeTimestampHeader p).since_epoch.nsecs < 1000000000) :
    lineFor p = specTimestampLine (decodeTimestampHeader p) := by
  unfold lineFor TimestampHeader.ToString specTimestampLine printfU32 printf06U32 NsecToUsec
  rw [pad6_eq_sixDigitChars ((decodeTimestampHeader p).since_boot_awake_only.nsecs / 1000)
      (by omega),
    pad6_eq_sixDigitChars ((decodeTimestampHeader p).since_boot_with_sleep.nsecs / 1000)
      (by omega),
    pad6_eq_sixDigitChars ((decodeTimestampHeader p).since_epoch.nsecs / 1000)
      (by omega)]

/-- Witness for `dump_line_format`: a 24-byte record of zero bytes (all
three timestamps decode to 0.000000000). -/
theorem dump_line_format_witness :
    ((decodeTimestampHeader (List.replicate 24 0)).since_boot_awake_only.nsecs < 1000000000 ∧
     (decodeTimestampHeader (List.replicate 24 0)).since_boot_with_sleep.nsecs < 1000000000 ∧
     (decodeTimestampHeader (List.replicate 24 0)).since_epoch.nsecs < 1000000000) ∧
    lineFor (List.replicate 24 0) =
      specTimestampLine (decodeTimestampHeader (List.replicate 24 0)) :=
  ⟨⟨by decide, by decide, by decide⟩,
    dump_line_format (List.replicate 24 0) (by decide) (by decide) (by decide)⟩

example :
    lineFor (encodeTimestampHeader ⟨⟨0, 999⟩, ⟨1, 1000⟩, ⟨123456, 123456000⟩⟩) =
      "0.000000 1.000001 123456.123456\x0a" := by decide

end Wifilogd
